/-
  Verification of the github-crawler repository (src/crawler.py) against its
  natural-language specification.

  The development shallowly embeds the ingestion pipeline of crawler.py:
  the date sharder of crawl_range (lines 111-160), the retrying HTTP client
  graphql_request (lines 63-75), the rate governor (lines 124-132), the
  record mapper (lines 139-151), the bulk upsert writers upsert_repos
  (lines 82-95) and upsert_history (lines 97-105), and the page/shard
  orchestration loop of crawl_range.  External effects (HTTP responses and
  wall-clock readings) are supplied as explicit inputs: the orchestrator
  consumes a finite script of fetch outcomes, one per issued request, and
  produces a chronological trace of events (requests, sleeps, upserts).
-/
import Mathlib

set_option maxHeartbeats 1000000

namespace Crawler

/-! ## Date sharder (crawl_range lines 111-113 and 160)

Dates are modelled as day numbers (days elapsed since some fixed epoch);
`timedelta(days = n)` is addition of `n`.  The loop

    while current_start < end_date:
        current_end = min(end_date, current_start + timedelta(days=WINDOW_DAYS))
        ...
        current_start = current_end + timedelta(days=1)

is embedded with explicit fuel; `e - s` steps always suffice because each
iteration advances `current_start` by at least one day. -/

def shardsGo (W : ℕ) : ℕ → ℕ → ℕ → List (ℕ × ℕ)
  | 0, _, _ => []
  | fuel + 1, s, e =>
    if s < e then (s, min e (s + W)) :: shardsGo W fuel (min e (s + W) + 1) e else []

/-- The sequence of `(current_start, current_end)` windows generated by
crawl_range for window width `W` and the configured range `[s, e]`. -/
def shards (W s e : ℕ) : List (ℕ × ℕ) :=
  shardsGo W (e - s) s e

/-! ## JSON serialization and the persistence writer (lines 82-105)

`json.dumps` on the string-valued dicts this crawler builds: keys and values
are rendered with the default separators.  The crucial point for the
metadata-merge analysis is that `json.dumps` always returns a string, never
SQL NULL; the empty dict serializes to the two-character string of an empty
object. -/

def jsonDumps (kvs : List (String × String)) : String :=
  "\x7b" ++ String.intercalate ", " (kvs.map (fun kv => "\"" ++ kv.1 ++ "\": \"" ++ kv.2 ++ "\"")) ++ "\x7d"

/-- A repository dict as built by the mapper in crawl_range (lines 142-150)
and consumed by upsert_repos. -/
structure RepoIn where
  id : String
  full_name : String
  name : String
  owner : String
  stars : ℤ
  url : String
  meta : List (String × String)
deriving DecidableEq

/-- A row of the repositories table (schema of line 84).  `metadata` is an
`Option String`: `none` models SQL NULL.  `last_scraped` is a timestamp. -/
structure RepoRow where
  repo_id : String
  full_name : String
  name : String
  owner_login : String
  stars : ℤ
  url : String
  metadata : Option String
  last_scraped : ℤ
deriving DecidableEq

/-- SQL COALESCE on two nullable strings. -/
def sqlCoalesce (a b : Option String) : Option String :=
  match a with
  | some v => some v
  | none => b

/-- The VALUES tuple built on lines 91-92: metadata is `json.dumps(r.meta)`
(hence never NULL) and `last_scraped` is the wall clock `ts` at the call. -/
def toVals (ts : ℤ) (r : RepoIn) : RepoRow :=
  { repo_id := r.id, full_name := r.full_name, name := r.name, owner_login := r.owner,
    stars := r.stars, url := r.url, metadata := some (jsonDumps r.meta), last_scraped := ts }

/-- One row of the INSERT ... ON CONFLICT (repo_id) DO UPDATE of lines 83-90:
on conflict only stars, metadata (via COALESCE) and last_scraped are set. -/
def upsertRepoRow (tab : List RepoRow) (v : RepoRow) : List RepoRow :=
  if ∃ x ∈ tab, x.repo_id = v.repo_id then
    tab.map (fun x =>
      if x.repo_id = v.repo_id then
        { x with stars := v.stars, metadata := sqlCoalesce v.metadata x.metadata,
                 last_scraped := v.last_scraped }
      else x)
  else tab ++ [v]

/-- upsert_repos (lines 82-95): serialize each dict to a VALUES tuple with
the current wall clock `ts`, then apply the batch in order. -/
def upsert_repos (ts : ℤ) (tab : List RepoRow) (repos : List RepoIn) : List RepoRow :=
  (repos.map (toVals ts)).foldl upsertRepoRow tab

/-- A row of repo_star_history (line 99); `snapshot_at` is a date (day number). -/
structure HistRow where
  repo_id : String
  stars : ℤ
  snapshot_at : ℤ
deriving DecidableEq

/-- One row of the INSERT ... ON CONFLICT (repo_id, snapshot_at) DO UPDATE SET
stars of lines 98-102. -/
def upsertHistRow (tab : List HistRow) (v : HistRow) : List HistRow :=
  if ∃ x ∈ tab, x.repo_id = v.repo_id ∧ x.snapshot_at = v.snapshot_at then
    tab.map (fun x =>
      if x.repo_id = v.repo_id ∧ x.snapshot_at = v.snapshot_at then { x with stars := v.stars }
      else x)
  else tab ++ [v]

/-- upsert_history (lines 97-105). -/
def upsert_history (tab : List HistRow) (rows : List HistRow) : List HistRow :=
  rows.foldl upsertHistRow tab

/-- Number of stored repository rows for an identity. -/
def countId (tab : List RepoRow) (i : String) : ℕ :=
  tab.countP (fun x => decide (x.repo_id = i))

/-- Number of stored history rows for an (identity, snapshot date) pair. -/
def countKey (tab : List HistRow) (i : String) (d : ℤ) : ℕ :=
  tab.countP (fun x => decide (x.repo_id = i ∧ x.snapshot_at = d))

/-- The primary-key invariant of repo_star_history: at most one row per
(identity, snapshot date). -/
def histInv (tab : List HistRow) : Prop :=
  ∀ i d, countKey tab i d ≤ 1

/-! ## Record mapper (crawl_range lines 139-151) -/

/-- A raw node of the GraphQL search response (fields of the QUERY document,
lines 48-56); `owner` is the owner login. -/
structure RawNode where
  id : String
  name : String
  url : String
  stargazerCount : ℤ
  owner : String
  createdAt : String
deriving DecidableEq

/-- Lines 142-150: build the repository dict; the creation timestamp goes
into the metadata dict, not a first-class column. -/
def mapRepoIn (r : RawNode) : RepoIn :=
  { id := r.id, full_name := r.owner ++ "/" ++ r.name, name := r.name, owner := r.owner,
    stars := r.stargazerCount, url := r.url, meta := [("createdAt", r.createdAt)] }

/-- Line 151: the history sample pairs the node with the run date `runDate`
(the `now = datetime.utcnow().date()` computed once on line 109). -/
def mapHistRow (runDate : ℤ) (r : RawNode) : HistRow :=
  { repo_id := r.id, stars := r.stargazerCount, snapshot_at := runDate }

/-! ## Remote query client graphql_request (lines 63-75)

The external HTTP layer is an oracle `resp : ℕ → HttpResp` giving the
response to the POST of each attempt.  The parsed JSON body is `GqlData`:
either a document carrying an application-level errors key, or a good
search page. -/

structure RateLimit where
  remaining : ℤ
  resetAt : ℤ
deriving DecidableEq

structure PageInfo where
  hasNextPage : Bool
  endCursor : Option String
deriving DecidableEq

structure SearchPage where
  rateLimit : RateLimit
  pageInfo : PageInfo
  nodes : List RawNode
deriving DecidableEq

/-- A parsed 200-response body: either it contains an errors key (checked on
line 120) or it is a well-formed search page. -/
inductive GqlData
  | errs
  | page (p : SearchPage)
deriving DecidableEq

structure HttpResp where
  status : ℕ
  body : GqlData
deriving DecidableEq

/-- Result of graphql_request: a returned JSON body, an immediate
raise_for_status on an HTTP error status, or the RuntimeError after the
retry loop ends (line 75). -/
inductive ReqOutcome
  | success (body : GqlData)
  | httpError (status : ℕ)
  | exhausted
deriving DecidableEq

/-- The transient statuses retried with backoff (line 68). -/
def transientStatuses : List ℕ := [502, 503, 504]

/-- The `for attempt in range(6)` loop of lines 64-74, with `rem` attempts
left.  Returns the outcome, the number of POSTs issued, and the list of
backoff sleeps (seconds, chronological).  requests' raise_for_status raises
exactly for statuses 400-599; any other non-200, non-transient status falls
through the loop and is re-attempted immediately. -/
def graphqlGo (resp : ℕ → HttpResp) : ℕ → ℕ → ReqOutcome × ℕ × List ℕ
  | attempt, 0 => (ReqOutcome.exhausted, attempt, [])
  | attempt, rem + 1 =>
    if (resp attempt).status = 200 then (ReqOutcome.success (resp attempt).body, attempt + 1, [])
    else if (resp attempt).status ∈ transientStatuses then
      let res := graphqlGo resp (attempt + 1) rem
      (res.1, res.2.1, 2 ^ attempt :: res.2.2)
    else if 400 ≤ (resp attempt).status ∧ (resp attempt).status ≤ 599 then
      (ReqOutcome.httpError (resp attempt).status, attempt + 1, [])
    else graphqlGo resp (attempt + 1) rem

/-- graphql_request (lines 63-75). -/
def graphql_request (resp : ℕ → HttpResp) : ReqOutcome × ℕ × List ℕ :=
  graphqlGo resp 0 6

/-! ## Rate governor (crawl_range lines 124-132) -/

/-- Lines 128-132: if the remaining quota of the response just processed is
below 50, sleep `max 1 ((resetAt - now) + 5)` seconds; otherwise do not
block. -/
def rateSleepSec (remaining resetAt now : ℤ) : Option ℤ :=
  if remaining < 50 then some (max 1 (resetAt - now + 5)) else none

/-! ## Crawl orchestrator (crawl_range lines 107-162)

Each issued request consumes one element of a finite script of
`FetchOutcome`s: either graphql_request returned a parsed body `d` (and
`obsTime` is the wall clock while the page is processed, feeding
`time.time()` on line 130 and `datetime.utcnow()` on line 92), or
graphql_request raised (retry exhaustion or raise_for_status), which
crawl_range does not catch.  The orchestrator emits a chronological trace
of events. -/

inductive FetchOutcome
  | ret (d : GqlData) (obsTime : ℤ)
  | raise
deriving DecidableEq

inductive Event
  | request (shard : ℕ × ℕ) (cursor : Option String)
  | sleepRate (sec : ℤ)
  | upsertR (n : ℕ)
  | upsertH (n : ℕ)
  | counted (n : ℕ)
  | pause
deriving DecidableEq

structure Tables where
  repos : List RepoRow
  hist : List HistRow
deriving DecidableEq

structure St where
  tabs : Tables
  total : ℕ
deriving DecidableEq

/-- Result of paginating one shard: the inner while loop exited normally
(returning the updated state and the unconsumed script), the run died on an
uncaught exception, or the script ran out while the loop wanted another
page. -/
inductive PagesRes
  | next (st : St) (script : List FetchOutcome) (evs : List Event)
  | aborted (st : St) (evs : List Event)
  | starved (st : St) (evs : List Event)
deriving DecidableEq

def addPagesEvs (pre : List Event) : PagesRes → PagesRes
  | PagesRes.next st sc evs => PagesRes.next st sc (pre ++ evs)
  | PagesRes.aborted st evs => PagesRes.aborted st (pre ++ evs)
  | PagesRes.starved st evs => PagesRes.starved st (pre ++ evs)

def pagesEvs : PagesRes → List Event
  | PagesRes.next _ _ evs => evs
  | PagesRes.aborted _ evs => evs
  | PagesRes.starved _ evs => evs

def pagesSt : PagesRes → St
  | PagesRes.next st _ _ => st
  | PagesRes.aborted st _ => st
  | PagesRes.starved st _ => st

/-- The sleep event emitted by the governor while a page is processed. -/
def pageSleepEvs (p : SearchPage) (obs : ℤ) : List Event :=
  match rateSleepSec p.rateLimit.remaining p.rateLimit.resetAt obs with
  | some d => [Event.sleepRate d]
  | none => []

/-- The `mapped` list of lines 139-150. -/
def pageMapped (p : SearchPage) : List RepoIn :=
  p.nodes.map mapRepoIn

/-- The `hist` list of lines 140 and 151. -/
def pageHist (runDate : ℤ) (p : SearchPage) : List HistRow :=
  p.nodes.map (mapHistRow runDate)

/-- Lines 152-154: both upserts run only when `mapped` is non-empty. -/
def pageTabs (runDate : ℤ) (tabs : Tables) (p : SearchPage) (obs : ℤ) : Tables :=
  if (pageMapped p).isEmpty then tabs
  else { repos := upsert_repos obs tabs.repos (pageMapped p),
         hist := upsert_history tabs.hist (pageHist runDate p) }

/-- The upsert events of a page (empty when no node was mapped). -/
def pageUpEvs (runDate : ℤ) (p : SearchPage) : List Event :=
  if (pageMapped p).isEmpty then []
  else [Event.upsertR (pageMapped p).length, Event.upsertH (pageHist runDate p).length,
        Event.counted (pageMapped p).length]

/-- Line 155: the running total grows only inside the `if mapped` block. -/
def pageTotal (total : ℕ) (p : SearchPage) : ℕ :=
  if (pageMapped p).isEmpty then total else total + (pageMapped p).length

/-- The inner `while has_next and total < REPOS_TO_FETCH` loop of lines
117-158, for the shard `sh`.  Each iteration: issue the request (line 119);
break out of the shard on an errors key (lines 120-122); otherwise run the
rate governor (lines 124-132), read the cursor and hasNextPage (lines
134-137), map the nodes (lines 139-151), and if any were mapped upsert both
tables and add to the running total (lines 152-156); finally the fixed
inter-page pause (line 158). -/
def crawlPages (target : ℕ) (runDate : ℤ) (sh : ℕ × ℕ) :
    St → Bool → Option String → List FetchOutcome → PagesRes
  | st, hn, _, [] =>
    if hn = true ∧ st.total < target then PagesRes.starved st [] else PagesRes.next st [] []
  | st, hn, cur, o :: rest =>
    if hn = true ∧ st.total < target then
      match o with
      | FetchOutcome.raise => PagesRes.aborted st [Event.request sh cur]
      | FetchOutcome.ret GqlData.errs _ => PagesRes.next st rest [Event.request sh cur]
      | FetchOutcome.ret (GqlData.page p) obs =>
        addPagesEvs (Event.request sh cur ::
            (pageSleepEvs p obs ++ pageUpEvs runDate p ++ [Event.pause]))
          (crawlPages target runDate sh
            { tabs := pageTabs runDate st.tabs p obs, total := pageTotal st.total p }
            p.pageInfo.hasNextPage p.pageInfo.endCursor rest)
    else PagesRes.next st (o :: rest) []

/-- Result of a whole run: the loop finished, the run died on an uncaught
exception, or the script ran out. -/
inductive RunRes
  | done (st : St) (evs : List Event)
  | aborted (st : St) (evs : List Event)
  | starved (st : St) (evs : List Event)
deriving DecidableEq

def addRunEvs (pre : List Event) : RunRes → RunRes
  | RunRes.done st evs => RunRes.done st (pre ++ evs)
  | RunRes.aborted st evs => RunRes.aborted st (pre ++ evs)
  | RunRes.starved st evs => RunRes.starved st (pre ++ evs)

def runEvs : RunRes → List Event
  | RunRes.done _ evs => evs
  | RunRes.aborted _ evs => evs
  | RunRes.starved _ evs => evs

def runSt : RunRes → St
  | RunRes.done st _ => st
  | RunRes.aborted st _ => st
  | RunRes.starved st _ => st

/-- The outer `while current_start < end_date and total < REPOS_TO_FETCH`
loop (lines 111-160), iterating over the precomputed shard sequence: for
each shard start paging from a null cursor (lines 114-115); an exception
from any page propagates and ends the run. -/
def crawlShards (target : ℕ) (runDate : ℤ) :
    St → List (ℕ × ℕ) → List FetchOutcome → RunRes
  | st, [], _ => RunRes.done st []
  | st, sh :: rest, script =>
    if st.total < target then
      match crawlPages target runDate sh st true none script with
      | PagesRes.next st2 sc2 evs => addRunEvs evs (crawlShards target runDate st2 rest sc2)
      | PagesRes.aborted st2 evs => RunRes.aborted st2 evs
      | PagesRes.starved st2 evs => RunRes.starved st2 evs
    else RunRes.done st []

/-- crawl_range (lines 107-162) over the configured range: the run date is
fixed once (line 109), the total starts at 0 (line 108), the shard sequence
is the one of lines 111-113 and 160. -/
def crawlRange (target : ℕ) (runDate : ℤ) (tabs : Tables) (W s e : ℕ)
    (script : List FetchOutcome) : RunRes :=
  crawlShards target runDate { tabs := tabs, total := 0 } (shards W s e) script

/-- Cumulative record count registered in a trace (the `total +=
len(mapped)` of line 155). -/
def recordsIn : List Event → ℕ
  | [] => 0
  | Event.counted n :: es => n + recordsIn es
  | _ :: es => recordsIn es

/-- Number of request events issued at a moment when the cumulative record
count had already reached `target`; `acc` is the count carried in from
earlier events. -/
def reqAtOrAfter (target : ℕ) : ℕ → List Event → ℕ
  | _, [] => 0
  | acc, Event.request _ _ :: es => (if target ≤ acc then 1 else 0) + reqAtOrAfter target acc es
  | acc, Event.counted n :: es => reqAtOrAfter target (acc + n) es
  | acc, _ :: es => reqAtOrAfter target acc es

/-! ## Concrete fixtures used by witnesses -/

def rEx : RepoIn :=
  { id := "repo1", full_name := "alice/r1", name := "r1", owner := "alice",
    stars := 5, url := "https://example.test/r1",
    meta := [("createdAt", "2010-01-05T00:00:00Z")] }

def rExEmpty : RepoIn :=
  { id := "repo1", full_name := "alice/r1", name := "r1", owner := "alice",
    stars := 7, url := "https://example.test/r1", meta := [] }

def pageEx : SearchPage :=
  { rateLimit := { remaining := 10, resetAt := 40 },
    pageInfo := { hasNextPage := false, endCursor := none }, nodes := [] }

def mockResp : ℕ → HttpResp :=
  fun k => if k < 4 then { status := 502, body := GqlData.errs }
           else { status := 200, body := GqlData.errs }

def tabsEx : Tables := { repos := [], hist := [] }

def stEx : St := { tabs := tabsEx, total := 0 }

/-! # Theorems

## Date sharder -/

theorem shardsGo_nil_of_ge (W : ℕ) (fuel s e : ℕ) (h : e ≤ s) : shardsGo W fuel s e = [] := by
  cases fuel with
  | zero => rfl
  | succ f => simp [shardsGo, Nat.not_lt.mpr h]

theorem shardsGo_bounds (W : ℕ) :
    ∀ (fuel s e : ℕ) (p : ℕ × ℕ), p ∈ shardsGo W fuel s e →
      s ≤ p.1 ∧ p.1 ≤ p.2 ∧ p.2 ≤ e ∧ p.2 - p.1 ≤ W := by
  intro fuel
  induction fuel with
  | zero => intro s e p hp; simp [shardsGo] at hp
  | succ f ih =>
    intro s e p hp
    rw [shardsGo] at hp
    by_cases h : s < e
    · rw [if_pos h] at hp
      rcases List.mem_cons.mp hp with hEq | hmem
      · subst hEq; dsimp only; omega
      · have := ih _ _ _ hmem
        omega
    · rw [if_neg h] at hp; simp at hp

theorem shardsGo_head_start (W : ℕ) (fuel s e : ℕ) (p : ℕ × ℕ)
    (hp : (shardsGo W fuel s e).head? = some p) : p.1 = s := by
  cases fuel with
  | zero => simp [shardsGo] at hp
  | succ f =>
    rw [shardsGo] at hp
    by_cases h : s < e
    · rw [if_pos h] at hp
      simp only [List.head?_cons, Option.some.injEq] at hp
      rw [← hp]
    · rw [if_neg h] at hp; simp at hp

theorem shardsGo_chain (W : ℕ) :
    ∀ (fuel s e : ℕ), List.Chain' (fun a b : ℕ × ℕ => b.1 = a.2 + 1) (shardsGo W fuel s e) := by
  intro fuel
  induction fuel with
  | zero => intro s e; simp [shardsGo]
  | succ f ih =>
    intro s e
    rw [shardsGo]
    by_cases h : s < e
    · rw [if_pos h, List.chain'_cons']
      refine ⟨?_, ih _ _⟩
      intro y hy
      have := shardsGo_head_start W f (min e (s + W) + 1) e y hy
      simpa using this
    · rw [if_neg h]; simp

theorem shardsGo_pairwise (W : ℕ) :
    ∀ (fuel s e : ℕ), List.Pairwise (fun a b : ℕ × ℕ => a.2 < b.1) (shardsGo W fuel s e) := by
  intro fuel
  induction fuel with
  | zero => intro s e; simp [shardsGo]
  | succ f ih =>
    intro s e
    rw [shardsGo]
    by_cases h : s < e
    · rw [if_pos h]
      refine List.Pairwise.cons ?_ (ih _ _)
      intro y hy
      have hb := shardsGo_bounds W f (min e (s + W) + 1) e y hy
      dsimp only
      omega
    · rw [if_neg h]; simp

theorem shardsGo_cover (W : ℕ) :
    ∀ (fuel s e : ℕ), e ≤ s + fuel → s < e → ∀ d : ℕ,
      ((∃ p ∈ shardsGo W fuel s e, p.1 ≤ d ∧ d ≤ p.2) ↔
        (s ≤ d ∧ d ≤ e ∧ ¬(d = e ∧ (W + 1) ∣ (e - s)))) := by
  intro fuel
  induction fuel with
  | zero => intro s e hf hs; omega
  | succ f ih =>
    intro s e hf hs d
    rw [shardsGo, if_pos hs]
    by_cases hm : e ≤ s + W
    · have hmin : min e (s + W) = e := Nat.min_eq_left hm
      rw [hmin, shardsGo_nil_of_ge W f (e + 1) e (by omega)]
      have hnd : ¬ (W + 1) ∣ (e - s) := by
        intro hdvd
        have := Nat.le_of_dvd (by omega) hdvd
        omega
      simp only [List.mem_cons, List.not_mem_nil, or_false]
      constructor
      · rintro ⟨p, rfl, h1, h2⟩
        dsimp only at h1 h2
        exact ⟨h1, h2, fun hc => hnd hc.2⟩
      · rintro ⟨h1, h2, -⟩
        exact ⟨(s, e), rfl, h1, h2⟩
    · push_neg at hm
      have hmin : min e (s + W) = s + W := Nat.min_eq_right (by omega)
      rw [hmin]
      by_cases he : s + W + 1 < e
      · have ihx := ih (s + W + 1) e (by omega) he d
        constructor
        · rintro ⟨p, hp, h1, h2⟩
          rcases List.mem_cons.mp hp with hEq | hmem
          · subst hEq
            dsimp only at h1 h2
            refine ⟨by omega, by omega, ?_⟩
            rintro ⟨rfl, -⟩; omega
          · have hx := ihx.mp ⟨p, hmem, h1, h2⟩
            refine ⟨by omega, hx.2.1, ?_⟩
            rintro ⟨rfl, hdvd⟩
            apply hx.2.2
            refine ⟨rfl, ?_⟩
            have h3 : d - (s + W + 1) = (d - s) - (W + 1) := by omega
            rw [h3]
            exact Nat.dvd_sub' hdvd (dvd_refl _)
        · rintro ⟨h1, h2, h3⟩
          by_cases hd : d ≤ s + W
          · exact ⟨(s, s + W), List.mem_cons_self _ _, by dsimp only; omega, by dsimp only; omega⟩
          · push_neg at hd
            have h4 : ¬(d = e ∧ (W + 1) ∣ (e - (s + W + 1))) := by
              rintro ⟨rfl, hdvd⟩
              apply h3
              refine ⟨rfl, ?_⟩
              have h5 : d - s = (d - (s + W + 1)) + (W + 1) := by omega
              rw [h5]
              exact Nat.dvd_add hdvd (dvd_refl _)
            obtain ⟨p, hmem, hp1, hp2⟩ := ihx.mpr ⟨by omega, h2, h4⟩
            exact ⟨p, List.mem_cons_of_mem _ hmem, hp1, hp2⟩
      · have he2 : s + W + 1 = e := by omega
        rw [shardsGo_nil_of_ge W f (s + W + 1) e (by omega)]
        have hdvd : (W + 1) ∣ (e - s) := ⟨1, by omega⟩
        simp only [List.mem_cons, List.not_mem_nil, or_false]
        constructor
        · rintro ⟨p, rfl, h1, h2⟩
          dsimp only at h1 h2
          refine ⟨by omega, by omega, ?_⟩
          rintro ⟨rfl, -⟩; omega
        · rintro ⟨h1, h2, h3⟩
          have hdne : d ≠ e := fun hh => h3 ⟨hh, hdvd⟩
          exact ⟨(s, s + W), rfl, by dsimp only; omega, by dsimp only; omega⟩

/-- C1 (amended): for every start date `s`, end date `e` with `s < e` (every
range derived from configured years is of this shape) and window width `W`,
the generated shard sequence is contiguous (each shard's end plus one day is
the next shard's start), pairwise non-overlapping, each shard lies inside
the range and spans at most `W` days beyond its start; a day of the range is
covered by some shard if and only if it is not the final day `e` in the case
that `W + 1` divides `e - s` — in that case the final configured day is
queried by no shard, so full coverage fails. -/
theorem shards_partition_amended (W s e : ℕ) (hse : s < e) :
    List.Chain' (fun a b : ℕ × ℕ => b.1 = a.2 + 1) (shards W s e) ∧
    List.Pairwise (fun a b : ℕ × ℕ => a.2 < b.1) (shards W s e) ∧
    (∀ p ∈ shards W s e, s ≤ p.1 ∧ p.1 ≤ p.2 ∧ p.2 ≤ e ∧ p.2 - p.1 ≤ W) ∧
    (∀ d : ℕ, (∃ p ∈ shards W s e, p.1 ≤ d ∧ d ≤ p.2) ↔
      (s ≤ d ∧ d ≤ e ∧ ¬(d = e ∧ (W + 1) ∣ (e - s)))) := by
  exact ⟨shardsGo_chain W _ _ _, shardsGo_pairwise W _ _ _,
    fun p hp => shardsGo_bounds W _ _ _ p hp,
    fun d => shardsGo_cover W _ _ _ (by omega) hse d⟩

/-- Witness for `shards_partition_amended` at the default-like configuration
window 7 over an 11-day range. -/
theorem shards_partition_amended_witness :
    0 < 10 ∧
    (List.Chain' (fun a b : ℕ × ℕ => b.1 = a.2 + 1) (shards 7 0 10) ∧
     List.Pairwise (fun a b : ℕ × ℕ => a.2 < b.1) (shards 7 0 10) ∧
     (∀ p ∈ shards 7 0 10, 0 ≤ p.1 ∧ p.1 ≤ p.2 ∧ p.2 ≤ 10 ∧ p.2 - p.1 ≤ 7) ∧
     (∀ d : ℕ, (∃ p ∈ shards 7 0 10, p.1 ≤ d ∧ d ≤ p.2) ↔
       (0 ≤ d ∧ d ≤ 10 ∧ ¬(d = 10 ∧ (7 + 1) ∣ (10 - 0))))) :=
  ⟨by decide, shards_partition_amended 7 0 10 (by decide)⟩

set_option maxRecDepth 100000 in
/-- C1 counterexample: with window width 1 and the configured single-year
range 2010 (start 2010-01-01 = day 0, end 2010-12-31 = day 364), the claim
fails: no generated shard contains the configured end date, day 364 — the
crawl never queries the final day of the range. -/
theorem shards_end_gap_counterexample :
    (∀ p ∈ shards 1 0 364, ¬(p.1 ≤ 364 ∧ 364 ≤ p.2)) ∧
    (shards 1 0 364).getLast? = some (362, 363) := by decide

/-! ## Persistence writer -/

@[simp] theorem toVals_repo_id (ts : ℤ) (r : RepoIn) : (toVals ts r).repo_id = r.id := rfl

@[simp] theorem toVals_stars (ts : ℤ) (r : RepoIn) : (toVals ts r).stars = r.stars := rfl

@[simp] theorem toVals_metadata (ts : ℤ) (r : RepoIn) :
    (toVals ts r).metadata = some (jsonDumps r.meta) := rfl

@[simp] theorem toVals_last_scraped (ts : ℤ) (r : RepoIn) : (toVals ts r).last_scraped = ts := rfl

theorem upsertRepoRow_fields (tab : List RepoRow) (v : RepoRow) (hv : ∃ m, v.metadata = some m) :
    ∀ row ∈ upsertRepoRow tab v, row.repo_id = v.repo_id →
      row.stars = v.stars ∧ row.last_scraped = v.last_scraped ∧ row.metadata = v.metadata := by
  intro row hrow hid
  obtain ⟨m, hm⟩ := hv
  rw [upsertRepoRow] at hrow
  by_cases h : ∃ x ∈ tab, x.repo_id = v.repo_id
  · rw [if_pos h] at hrow
    obtain ⟨x, hx, hfx⟩ := List.mem_map.mp hrow
    by_cases hxe : x.repo_id = v.repo_id
    · rw [if_pos hxe] at hfx
      rw [← hfx]
      refine ⟨rfl, rfl, ?_⟩
      simp [sqlCoalesce, hm]
    · rw [if_neg hxe] at hfx
      subst hfx
      exact absurd hid hxe
  · rw [if_neg h] at hrow
    rcases List.mem_append.mp hrow with hin | hone
    · exact absurd ⟨row, hin, hid⟩ h
    · simp only [List.mem_singleton] at hone
      subst hone
      exact ⟨rfl, rfl, rfl⟩

theorem countId_map_update (tab : List RepoRow) (v : RepoRow) :
    countId (tab.map (fun x => if x.repo_id = v.repo_id then
      { x with stars := v.stars, metadata := sqlCoalesce v.metadata x.metadata,
               last_scraped := v.last_scraped } else x)) v.repo_id = countId tab v.repo_id := by
  unfold countId
  rw [List.countP_map]
  congr 1
  funext x
  by_cases hxe : x.repo_id = v.repo_id <;> simp [Function.comp, hxe]

theorem countId_upsertRepoRow (tab : List RepoRow) (v : RepoRow) :
    countId (upsertRepoRow tab v) v.repo_id = max 1 (countId tab v.repo_id) := by
  rw [upsertRepoRow]
  by_cases h : ∃ x ∈ tab, x.repo_id = v.repo_id
  · rw [if_pos h, countId_map_update]
    have hpos : 0 < countId tab v.repo_id := by
      unfold countId
      rw [List.countP_pos_iff]
      obtain ⟨x, hx, he⟩ := h
      exact ⟨x, hx, by simp [he]⟩
    omega
  · rw [if_neg h]
    have hz : countId tab v.repo_id = 0 := by
      unfold countId
      rw [List.countP_eq_zero]
      intro x hx
      simp only [decide_eq_true_eq]
      intro he
      exact h ⟨x, hx, he⟩
    unfold countId at hz ⊢
    rw [List.countP_append, hz]
    simp [List.countP_cons]

theorem countKey_map_update (tab : List HistRow) (v : HistRow) (i : String) (d : ℤ) :
    countKey (tab.map (fun x => if x.repo_id = v.repo_id ∧ x.snapshot_at = v.snapshot_at then
      { x with stars := v.stars } else x)) i d = countKey tab i d := by
  unfold countKey
  rw [List.countP_map]
  congr 1
  funext x
  by_cases hxe : x.repo_id = v.repo_id ∧ x.snapshot_at = v.snapshot_at <;>
    simp [Function.comp, hxe]

theorem countKey_upsertHistRow_self (tab : List HistRow) (v : HistRow) :
    countKey (upsertHistRow tab v) v.repo_id v.snapshot_at
      = max 1 (countKey tab v.repo_id v.snapshot_at) := by
  rw [upsertHistRow]
  by_cases h : ∃ x ∈ tab, x.repo_id = v.repo_id ∧ x.snapshot_at = v.snapshot_at
  · rw [if_pos h, countKey_map_update]
    have hpos : 0 < countKey tab v.repo_id v.snapshot_at := by
      unfold countKey
      rw [List.countP_pos_iff]
      obtain ⟨x, hx, he⟩ := h
      exact ⟨x, hx, by simp [he.1, he.2]⟩
    omega
  · rw [if_neg h]
    have hz : countKey tab v.repo_id v.snapshot_at = 0 := by
      unfold countKey
      rw [List.countP_eq_zero]
      intro x hx
      simp only [decide_eq_true_eq]
      intro he
      exact h ⟨x, hx, he⟩
    unfold countKey at hz ⊢
    rw [List.countP_append, hz]
    simp [List.countP_cons]

theorem countKey_upsertHistRow_other (tab : List HistRow) (v : HistRow) (i : String) (d : ℤ)
    (hne : ¬(v.repo_id = i ∧ v.snapshot_at = d)) :
    countKey (upsertHistRow tab v) i d = countKey tab i d := by
  rw [upsertHistRow]
  by_cases h : ∃ x ∈ tab, x.repo_id = v.repo_id ∧ x.snapshot_at = v.snapshot_at
  · rw [if_pos h, countKey_map_update]
  · rw [if_neg h]
    unfold countKey
    rw [List.countP_append]
    simp [List.countP_cons, hne]

theorem upsertHistRow_inv (tab : List HistRow) (v : HistRow) (h : histInv tab) :
    histInv (upsertHistRow tab v) := by
  intro i d
  by_cases hk : v.repo_id = i ∧ v.snapshot_at = d
  · obtain ⟨h1, h2⟩ := hk
    subst h1
    subst h2
    rw [countKey_upsertHistRow_self]
    have := h v.repo_id v.snapshot_at
    omega
  · rw [countKey_upsertHistRow_other tab v i d hk]
    exact h i d

theorem upsert_history_inv : ∀ (rows tab : List HistRow),
    histInv tab → histInv (upsert_history tab rows) := by
  intro rows
  induction rows with
  | nil => intro tab h; exact h
  | cons r rs ih =>
    intro tab h
    have e : upsert_history tab (r :: rs) = upsert_history (upsertHistRow tab r) rs := rfl
    rw [e]
    exact ih (upsertHistRow tab r) (upsertHistRow_inv tab r h)

theorem upsertHistRow_stars (tab : List HistRow) (v : HistRow) :
    ∀ row ∈ upsertHistRow tab v, row.repo_id = v.repo_id → row.snapshot_at = v.snapshot_at →
      row.stars = v.stars := by
  intro row hrow h1 h2
  rw [upsertHistRow] at hrow
  by_cases h : ∃ x ∈ tab, x.repo_id = v.repo_id ∧ x.snapshot_at = v.snapshot_at
  · rw [if_pos h] at hrow
    obtain ⟨x, hx, hfx⟩ := List.mem_map.mp hrow
    by_cases hxe : x.repo_id = v.repo_id ∧ x.snapshot_at = v.snapshot_at
    · rw [if_pos hxe] at hfx
      rw [← hfx]
    · rw [if_neg hxe] at hfx
      subst hfx
      exact absurd ⟨h1, h2⟩ hxe
  · rw [if_neg h] at hrow
    rcases List.mem_append.mp hrow with hin | hone
    · exact absurd ⟨row, hin, h1, h2⟩ h
    · simp only [List.mem_singleton] at hone
      subst hone
      rfl

/-- C2 counterexample: store a repository row with non-empty metadata, then
upsert the same identity with an empty metadata dict.  The claim predicts
the stored metadata is preserved; in fact `json.dumps` serializes the empty
dict to the non-NULL string of an empty JSON object, COALESCE picks it, and
the stored metadata is replaced (stars and last_scraped are overwritten, as
the claim also says). -/
theorem upsert_metadata_overwrite_counterexample :
    (∀ row ∈ upsert_repos 100 [] [rEx], row.metadata = some (jsonDumps rEx.meta)) ∧
    (∀ row ∈ upsert_repos 200 (upsert_repos 100 [] [rEx]) [rExEmpty],
      row.metadata = some "\x7b\x7d" ∧ row.stars = 7 ∧ row.last_scraped = 200) ∧
    some "\x7b\x7d" ≠ some (jsonDumps rEx.meta) ∧
    (upsert_repos 200 (upsert_repos 100 [] [rEx]) [rExEmpty]).length = 1 := by decide

/-- C2 (amended): upserting a record for an already-stored identity
overwrites star count and last-observed timestamp unconditionally, and also
overwrites the stored metadata unconditionally — the writer serializes every
incoming metadata dict (the empty dict included) with json.dumps, so the SQL
value is never NULL and the COALESCE merge-on-null never preserves the
previously stored metadata. -/
theorem upsert_repos_overwrite_amended (tab : List RepoRow) (r : RepoIn) (ts : ℤ) :
    ∀ row ∈ upsert_repos ts tab [r], row.repo_id = r.id →
      row.stars = r.stars ∧ row.last_scraped = ts ∧ row.metadata = some (jsonDumps r.meta) := by
  intro row hrow hid
  exact upsertRepoRow_fields tab (toVals ts r) ⟨jsonDumps r.meta, rfl⟩ row hrow hid

/-- Witness for `upsert_repos_overwrite_amended` on a one-row table. -/
theorem upsert_repos_overwrite_amended_witness :
    (toVals 100 rEx ∈ upsert_repos 100 [] [rEx]) ∧ (toVals 100 rEx).repo_id = rEx.id ∧
    ((toVals 100 rEx).stars = rEx.stars ∧ (toVals 100 rEx).last_scraped = 100 ∧
      (toVals 100 rEx).metadata = some (jsonDumps rEx.meta)) :=
  ⟨by decide, by decide,
    upsert_repos_overwrite_amended [] rEx 100 (toVals 100 rEx) (by decide) (by decide)⟩

/-- C7: upserting the same repository record twice (same star count,
non-empty metadata) into a table satisfying the one-row-per-identity
invariant leaves exactly one stored row for that identity, and every stored
row for it carries the original metadata and star count — repository upsert
is idempotent and never duplicates an identity. -/
theorem upsert_repos_idempotent (tab : List RepoRow) (r : RepoIn) (ts1 ts2 : ℤ)
    (_hm : r.meta ≠ []) (hinv : countId tab r.id ≤ 1) :
    countId (upsert_repos ts2 (upsert_repos ts1 tab [r]) [r]) r.id = 1 ∧
    (∀ row ∈ upsert_repos ts2 (upsert_repos ts1 tab [r]) [r], row.repo_id = r.id →
      row.metadata = some (jsonDumps r.meta) ∧ row.stars = r.stars) := by
  constructor
  · have e2 : upsert_repos ts2 (upsert_repos ts1 tab [r]) [r]
        = upsertRepoRow (upsertRepoRow tab (toVals ts1 r)) (toVals ts2 r) := rfl
    rw [e2]
    have c1 := countId_upsertRepoRow tab (toVals ts1 r)
    have c2 := countId_upsertRepoRow (upsertRepoRow tab (toVals ts1 r)) (toVals ts2 r)
    rw [toVals_repo_id] at c1 c2
    omega
  · intro row hrow hid
    have h := upsertRepoRow_fields (upsertRepoRow tab (toVals ts1 r)) (toVals ts2 r)
      ⟨jsonDumps r.meta, rfl⟩ row hrow hid
    exact ⟨h.2.2, h.1⟩

/-- Witness for `upsert_repos_idempotent` starting from the empty table. -/
theorem upsert_repos_idempotent_witness :
    (rEx.meta ≠ [] ∧ countId [] rEx.id ≤ 1) ∧
    (countId (upsert_repos 200 (upsert_repos 100 [] [rEx]) [rEx]) rEx.id = 1 ∧
     (∀ row ∈ upsert_repos 200 (upsert_repos 100 [] [rEx]) [rEx], row.repo_id = rEx.id →
       row.metadata = some (jsonDumps rEx.meta) ∧ row.stars = rEx.stars)) :=
  ⟨⟨by decide, by decide⟩, upsert_repos_idempotent [] rEx 100 200 (by decide) (by decide)⟩

/-- C8: the one-row-per-(identity, snapshot date) invariant is preserved by
every history upsert, and upserting a sample for the same (identity, date)
twice with different star counts leaves exactly one row for the pair,
holding the latest count. -/
theorem upsert_history_overwrite (tab : List HistRow) (i : String) (d s1 s2 : ℤ)
    (rows : List HistRow) (hinv : histInv tab) :
    histInv (upsert_history tab rows) ∧
    countKey (upsert_history (upsert_history tab [⟨i, s1, d⟩]) [⟨i, s2, d⟩]) i d = 1 ∧
    (∀ row ∈ upsert_history (upsert_history tab [⟨i, s1, d⟩]) [⟨i, s2, d⟩],
      row.repo_id = i → row.snapshot_at = d → row.stars = s2) := by
  refine ⟨upsert_history_inv rows tab hinv, ?_, ?_⟩
  · have e : upsert_history (upsert_history tab [⟨i, s1, d⟩]) [⟨i, s2, d⟩]
        = upsertHistRow (upsertHistRow tab ⟨i, s1, d⟩) ⟨i, s2, d⟩ := rfl
    rw [e]
    have c1 := countKey_upsertHistRow_self tab ⟨i, s1, d⟩
    have c2 := countKey_upsertHistRow_self (upsertHistRow tab ⟨i, s1, d⟩) ⟨i, s2, d⟩
    dsimp only at c1 c2
    have := hinv i d
    omega
  · intro row hrow h1 h2
    exact upsertHistRow_stars _ ⟨i, s2, d⟩ row hrow h1 h2

/-- Witness for `upsert_history_overwrite` starting from the empty table. -/
theorem upsert_history_overwrite_witness :
    histInv (upsert_history ([] : List HistRow) []) ∧
    countKey (upsert_history (upsert_history [] [⟨"repo1", 3, 14703⟩]) [⟨"repo1", 4, 14703⟩])
      "repo1" 14703 = 1 ∧
    (∀ row ∈ upsert_history (upsert_history [] [⟨"repo1", 3, 14703⟩]) [⟨"repo1", 4, 14703⟩],
      row.repo_id = "repo1" → row.snapshot_at = 14703 → row.stars = 4) :=
  upsert_history_overwrite [] "repo1" 14703 3 4 []
    (by intro i d; simp [countKey])

/-! ## Record mapper -/

/-- C9: the history sample built for a raw node carries the run date (the
UTC date the crawl executes, computed once on line 109) as its snapshot
date — replacing the node's creation timestamp changes nothing — while the
creation timestamp is packed into the repository record's metadata blob. -/
theorem snapshot_uses_run_date (r : RawNode) (runDate : ℤ) :
    (mapHistRow runDate r).snapshot_at = runDate ∧
    (∀ c : String, (mapHistRow runDate { r with createdAt := c }).snapshot_at = runDate) ∧
    (mapRepoIn r).meta = [("createdAt", r.createdAt)] :=
  ⟨rfl, fun _ => rfl, rfl⟩

/-! ## Remote query client -/

theorem graphqlGo_posts_le (resp : ℕ → HttpResp) :
    ∀ (rem attempt : ℕ), (graphqlGo resp attempt rem).2.1 ≤ attempt + rem := by
  intro rem
  induction rem with
  | zero => intro attempt; simp [graphqlGo]
  | succ rm ih =>
    intro attempt
    rw [graphqlGo]
    by_cases h1 : (resp attempt).status = 200
    · rw [if_pos h1]; dsimp only; omega
    · rw [if_neg h1]
      by_cases h2 : (resp attempt).status ∈ transientStatuses
      · rw [if_pos h2]
        dsimp only
        have := ih (attempt + 1)
        omega
      · rw [if_neg h2]
        by_cases h3 : 400 ≤ (resp attempt).status ∧ (resp attempt).status ≤ 599
        · rw [if_pos h3]; dsimp only; omega
        · rw [if_neg h3]
          have := ih (attempt + 1)
          omega

theorem graphqlGo_transient_then_ok (resp : ℕ → HttpResp) :
    ∀ (j rem attempt : ℕ), j < rem →
      (∀ k, k < j → (resp (attempt + k)).status ∈ transientStatuses) →
      (resp (attempt + j)).status = 200 →
      graphqlGo resp attempt rem
        = (ReqOutcome.success (resp (attempt + j)).body, attempt + j + 1,
           (List.range j).map (fun i => 2 ^ (attempt + i))) := by
  intro j
  induction j with
  | zero =>
    intro rem attempt hj hk h200
    cases rem with
    | zero => omega
    | succ rm =>
      rw [graphqlGo, if_pos (by simpa using h200)]
      simp
  | succ jj ih =>
    intro rem attempt hj hk h200
    cases rem with
    | zero => omega
    | succ rm =>
      have htr : (resp attempt).status ∈ transientStatuses := by simpa using hk 0 (by omega)
      have hne : ¬ (resp attempt).status = 200 := by
        intro he
        rw [he] at htr
        simp [transientStatuses] at htr
      rw [graphqlGo, if_neg hne, if_pos htr]
      have ihx := ih rm (attempt + 1) (by omega)
        (fun k hkk => by
          have h := hk (k + 1) (by omega)
          have ha : attempt + (k + 1) = attempt + 1 + k := by omega
          rwa [ha] at h)
        (by
          have ha : attempt + (jj + 1) = attempt + 1 + jj := by omega
          rw [← ha]
          exact h200)
      dsimp only
      rw [ihx]
      have tails : (List.range jj).map ((fun i => 2 ^ (attempt + i)) ∘ Nat.succ)
          = (List.range jj).map (fun i => 2 ^ (attempt + 1 + i)) :=
        List.map_congr_left (fun i _ => by
          show (2 : ℕ) ^ (attempt + (i + 1)) = 2 ^ (attempt + 1 + i)
          congr 1
          omega)
      have hl : (List.range (jj + 1)).map (fun i => 2 ^ (attempt + i))
          = 2 ^ attempt :: (List.range jj).map (fun i => 2 ^ (attempt + 1 + i)) := by
        rw [List.range_succ_eq_map, List.map_cons, List.map_map, tails]
        simp
      have ha : attempt + (jj + 1) = attempt + 1 + jj := by omega
      rw [ha, hl]

theorem graphqlGo_all_transient (resp : ℕ → HttpResp) :
    ∀ (rem attempt : ℕ),
      (∀ k, k < rem → (resp (attempt + k)).status ∈ transientStatuses) →
      graphqlGo resp attempt rem
        = (ReqOutcome.exhausted, attempt + rem,
           (List.range rem).map (fun i => 2 ^ (attempt + i))) := by
  intro rem
  induction rem with
  | zero => intro attempt hk; simp [graphqlGo]
  | succ rm ih =>
    intro attempt hk
    have htr : (resp attempt).status ∈ transientStatuses := by simpa using hk 0 (by omega)
    have hne : ¬ (resp attempt).status = 200 := by
      intro he
      rw [he] at htr
      simp [transientStatuses] at htr
    rw [graphqlGo, if_neg hne, if_pos htr]
    have ihx := ih (attempt + 1) (fun k hkk => by
      have h := hk (k + 1) (by omega)
      have ha : attempt + (k + 1) = attempt + 1 + k := by omega
      rwa [ha] at h)
    dsimp only
    rw [ihx]
    have tails : (List.range rm).map ((fun i => 2 ^ (attempt + i)) ∘ Nat.succ)
        = (List.range rm).map (fun i => 2 ^ (attempt + 1 + i)) :=
      List.map_congr_left (fun i _ => by
        show (2 : ℕ) ^ (attempt + (i + 1)) = 2 ^ (attempt + 1 + i)
        congr 1
        omega)
    have hl : (List.range (rm + 1)).map (fun i => 2 ^ (attempt + i))
        = 2 ^ attempt :: (List.range rm).map (fun i => 2 ^ (attempt + 1 + i)) := by
      rw [List.range_succ_eq_map, List.map_cons, List.map_map, tails]
      simp
    have ha : attempt + (rm + 1) = attempt + 1 + rm := by omega
    rw [ha, hl]

theorem graphqlGo_odd_retry (resp : ℕ → HttpResp) :
    ∀ (rem attempt : ℕ),
      (∀ k, k < rem → (resp (attempt + k)).status ≠ 200 ∧
        (resp (attempt + k)).status ∉ transientStatuses ∧
        ¬(400 ≤ (resp (attempt + k)).status ∧ (resp (attempt + k)).status ≤ 599)) →
      graphqlGo resp attempt rem = (ReqOutcome.exhausted, attempt + rem, []) := by
  intro rem
  induction rem with
  | zero => intro attempt hk; simp [graphqlGo]
  | succ rm ih =>
    intro attempt hk
    obtain ⟨h1, h2, h3⟩ := hk 0 (by omega)
    rw [Nat.add_zero] at h1 h2 h3
    rw [graphqlGo, if_neg h1, if_neg h2, if_neg h3]
    have ihx := ih (attempt + 1) (fun k hkk => by
      have h := hk (k + 1) (by omega)
      have ha : attempt + (k + 1) = attempt + 1 + k := by omega
      rwa [ha] at h)
    rw [ihx]
    have ha : attempt + 1 + rm = attempt + (rm + 1) := by omega
    rw [ha]

/-- C5 (amended): the client makes at most 6 POST attempts.  A 200 response
returns its body immediately — application-level errors included — with no
retry; the transient statuses 502/503/504 are retried after a
2^attempt-second backoff; any other status in 400-599 raises immediately
without retry; but any remaining status (a non-200 status outside 400-599,
such as 204 or a redirect) is also re-attempted, immediately and with no
backoff — so retrying is not restricted to the server-side transient
statuses; 6 attempts without a return or a raise end in the
RequestExhausted failure.  In particular, a transient status four times
followed by a 200 yields the successful body after 5 posts with backoffs
1, 2, 4, 8 seconds and no surfaced error. -/
theorem graphql_request_retry_amended (resp : ℕ → HttpResp) :
    ((graphql_request resp).2.1 ≤ 6) ∧
    (∀ j, j < 6 → (∀ k, k < j → (resp k).status ∈ transientStatuses) →
      (resp j).status = 200 →
      graphql_request resp
        = (ReqOutcome.success (resp j).body, j + 1, (List.range j).map (fun i => 2 ^ i))) ∧
    ((resp 0).status ∉ transientStatuses → 400 ≤ (resp 0).status → (resp 0).status ≤ 599 →
      graphql_request resp = (ReqOutcome.httpError (resp 0).status, 1, [])) ∧
    ((∀ k, k < 6 → (resp k).status ∈ transientStatuses) →
      graphql_request resp = (ReqOutcome.exhausted, 6, [1, 2, 4, 8, 16, 32])) ∧
    ((∀ k, k < 6 → (resp k).status ≠ 200 ∧ (resp k).status ∉ transientStatuses ∧
        ¬(400 ≤ (resp k).status ∧ (resp k).status ≤ 599)) →
      graphql_request resp = (ReqOutcome.exhausted, 6, [])) := by
  refine ⟨?_, ?_, ?_, ?_, ?_⟩
  · have h := graphqlGo_posts_le resp 6 0
    simpa [graphql_request] using h
  · intro j hj hk h200
    have h := graphqlGo_transient_then_ok resp j 6 0 hj
      (fun k hkk => by simpa using hk k hkk) (by simpa using h200)
    simpa [graphql_request] using h
  · intro h2 h4 h5
    have h200 : ¬ (resp 0).status = 200 := by omega
    rw [graphql_request, graphqlGo, if_neg h200, if_neg h2, if_pos ⟨h4, h5⟩]
  · intro hk
    have h := graphqlGo_all_transient resp 6 0 (fun k hkk => by simpa using hk k hkk)
    rw [graphql_request, h]
    decide
  · intro hk
    have h := graphqlGo_odd_retry resp 6 0 (fun k hkk => by simpa using hk k hkk)
    rw [graphql_request, h]

/-- C5 counterexample: a client that always answers 204 — a success-class
status that is neither 200, nor in the transient set, nor a
raise_for_status error — is re-attempted all 6 times (6 POSTs, no backoff)
and ends in the RequestExhausted failure, so the client does retry on a
status outside the server-side transient set, contradicting the claim that
it retries only on 502/503/504. -/
theorem graphql_request_retries_nontransient_counterexample :
    graphql_request (fun _ => { status := 204, body := GqlData.errs })
      = (ReqOutcome.exhausted, 6, []) ∧ 204 ∉ transientStatuses := by decide

/-- Witness for `graphql_request_retry_amended`: the mock client answering
502 four times and then 200. -/
theorem graphql_request_retry_amended_witness :
    (4 < 6 ∧ (∀ k, k < 4 → (mockResp k).status ∈ transientStatuses) ∧
      (mockResp 4).status = 200) ∧
    graphql_request mockResp = (ReqOutcome.success GqlData.errs, 5, [1, 2, 4, 8]) :=
  ⟨by decide, by
    rw [(graphql_request_retry_amended mockResp).2.1 4 (by decide) (by decide) (by decide)]
    decide⟩

/-! ## Crawl orchestrator -/

@[simp] theorem pagesEvs_addPagesEvs (pre : List Event) (r : PagesRes) :
    pagesEvs (addPagesEvs pre r) = pre ++ pagesEvs r := by
  cases r <;> rfl

@[simp] theorem pagesSt_addPagesEvs (pre : List Event) (r : PagesRes) :
    pagesSt (addPagesEvs pre r) = pagesSt r := by
  cases r <;> rfl

@[simp] theorem runEvs_addRunEvs (pre : List Event) (r : RunRes) :
    runEvs (addRunEvs pre r) = pre ++ runEvs r := by
  cases r <;> rfl

theorem recordsIn_append (xs ys : List Event) :
    recordsIn (xs ++ ys) = recordsIn xs + recordsIn ys := by
  induction xs with
  | nil => simp [recordsIn]
  | cons x xs ih => cases x <;> simp [recordsIn, ih, Nat.add_assoc]

theorem reqAtOrAfter_append (t : ℕ) :
    ∀ (xs ys : List Event) (acc : ℕ),
      reqAtOrAfter t acc (xs ++ ys)
        = reqAtOrAfter t acc xs + reqAtOrAfter t (acc + recordsIn xs) ys := by
  intro xs
  induction xs with
  | nil => intro ys acc; simp [reqAtOrAfter, recordsIn]
  | cons x xs ih =>
    intro ys acc
    cases x <;> simp [reqAtOrAfter, recordsIn, ih, Nat.add_assoc]

theorem recordsIn_pageSleepEvs (p : SearchPage) (obs : ℤ) :
    recordsIn (pageSleepEvs p obs) = 0 := by
  unfold pageSleepEvs
  cases rateSleepSec p.rateLimit.remaining p.rateLimit.resetAt obs <;> simp [recordsIn]

theorem reqAtOrAfter_pageSleepEvs (t acc : ℕ) (p : SearchPage) (obs : ℤ) :
    reqAtOrAfter t acc (pageSleepEvs p obs) = 0 := by
  unfold pageSleepEvs
  cases rateSleepSec p.rateLimit.remaining p.rateLimit.resetAt obs <;> simp [reqAtOrAfter]

theorem recordsIn_pageUpEvs (runDate : ℤ) (p : SearchPage) (total : ℕ) :
    total + recordsIn (pageUpEvs runDate p) = pageTotal total p := by
  unfold pageUpEvs pageTotal
  by_cases hemp : (pageMapped p).isEmpty <;> simp [hemp, recordsIn]

theorem reqAtOrAfter_pageUpEvs (t acc : ℕ) (runDate : ℤ) (p : SearchPage) :
    reqAtOrAfter t acc (pageUpEvs runDate p) = 0 := by
  unfold pageUpEvs
  by_cases hemp : (pageMapped p).isEmpty <;> simp [hemp, reqAtOrAfter]

@[simp] theorem recordsIn_pause : recordsIn [Event.pause] = 0 := rfl

@[simp] theorem reqAtOrAfter_pause (t acc : ℕ) : reqAtOrAfter t acc [Event.pause] = 0 := rfl

theorem recordsIn_request (sh : ℕ × ℕ) (cur : Option String) (es : List Event) :
    recordsIn (Event.request sh cur :: es) = recordsIn es := rfl

theorem reqAtOrAfter_request (t acc : ℕ) (sh : ℕ × ℕ) (cur : Option String) (es : List Event) :
    reqAtOrAfter t acc (Event.request sh cur :: es)
      = (if t ≤ acc then 1 else 0) + reqAtOrAfter t acc es := rfl

theorem reqAtOrAfter_pagePre (t acc : ℕ) (runDate : ℤ) (p : SearchPage) (obs : ℤ) :
    reqAtOrAfter t acc (pageSleepEvs p obs ++ pageUpEvs runDate p ++ [Event.pause]) = 0 := by
  rw [reqAtOrAfter_append, reqAtOrAfter_append]
  rw [reqAtOrAfter_pageSleepEvs, reqAtOrAfter_pageUpEvs, reqAtOrAfter_pause]

theorem recordsIn_pagePre (runDate : ℤ) (p : SearchPage) (obs : ℤ) :
    recordsIn (pageSleepEvs p obs ++ pageUpEvs runDate p ++ [Event.pause])
      = recordsIn (pageUpEvs runDate p) := by
  rw [recordsIn_append, recordsIn_append, recordsIn_pageSleepEvs, recordsIn_pause]
  omega

theorem crawlPages_invariant (target : ℕ) (runDate : ℤ) (sh : ℕ × ℕ) :
    ∀ (script : List FetchOutcome) (st : St) (hn : Bool) (cur : Option String),
      reqAtOrAfter target st.total
        (pagesEvs (crawlPages target runDate sh st hn cur script)) = 0 ∧
      (pagesSt (crawlPages target runDate sh st hn cur script)).total
        = st.total + recordsIn (pagesEvs (crawlPages target runDate sh st hn cur script)) := by
  intro script
  induction script with
  | nil =>
    intro st hn cur
    rw [crawlPages.eq_def]
    dsimp only
    by_cases h : hn = true ∧ st.total < target
    · rw [if_pos h]; simp [pagesEvs, pagesSt, reqAtOrAfter, recordsIn]
    · rw [if_neg h]; simp [pagesEvs, pagesSt, reqAtOrAfter, recordsIn]
  | cons o rest ih =>
    intro st hn cur
    rw [crawlPages.eq_def]
    dsimp only
    by_cases h : hn = true ∧ st.total < target
    · rw [if_pos h]
      have hlt : ¬ target ≤ st.total := Nat.not_le.mpr h.2
      cases o with
      | raise => simp [pagesEvs, pagesSt, reqAtOrAfter, recordsIn, hlt]
      | ret d obs =>
        cases d with
        | errs => simp [pagesEvs, pagesSt, reqAtOrAfter, recordsIn, hlt]
        | page p =>
          dsimp only
          obtain ⟨ih1, ih2⟩ :=
            ih { tabs := pageTabs runDate st.tabs p obs, total := pageTotal st.total p }
              p.pageInfo.hasNextPage p.pageInfo.endCursor
          dsimp only at ih1 ih2
          have hrec := recordsIn_pageUpEvs runDate p st.total
          constructor
          · rw [pagesEvs_addPagesEvs, List.cons_append, reqAtOrAfter_request, if_neg hlt]
            rw [reqAtOrAfter_append, reqAtOrAfter_pagePre, recordsIn_pagePre, hrec]
            simpa using ih1
          · rw [pagesSt_addPagesEvs, pagesEvs_addPagesEvs, ih2, List.cons_append]
            rw [recordsIn_request, recordsIn_append, recordsIn_pagePre]
            omega
    · rw [if_neg h]
      simp [pagesEvs, pagesSt, reqAtOrAfter, recordsIn]

theorem crawlShards_invariant (target : ℕ) (runDate : ℤ) :
    ∀ (shardL : List (ℕ × ℕ)) (st : St) (script : List FetchOutcome),
      reqAtOrAfter target st.total (runEvs (crawlShards target runDate st shardL script)) = 0 := by
  intro shardL
  induction shardL with
  | nil => intro st script; simp [crawlShards, runEvs, reqAtOrAfter]
  | cons sh rest ih =>
    intro st script
    rw [crawlShards.eq_def]
    dsimp only
    by_cases h : st.total < target
    · rw [if_pos h]
      obtain ⟨p1, p2⟩ := crawlPages_invariant target runDate sh script st true none
      cases hc : crawlPages target runDate sh st true none script with
      | next st2 sc2 evs =>
        rw [hc] at p1 p2
        dsimp only [pagesEvs, pagesSt] at p1 p2
        dsimp only
        rw [runEvs_addRunEvs, reqAtOrAfter_append, p1, ← p2]
        simp [ih st2 sc2]
      | aborted st2 evs =>
        rw [hc] at p1
        dsimp only [pagesEvs] at p1
        dsimp only [runEvs]
        exact p1
      | starved st2 evs =>
        rw [hc] at p1
        dsimp only [pagesEvs] at p1
        dsimp only [runEvs]
        exact p1
    · rw [if_neg h]
      simp [runEvs, reqAtOrAfter]

/-- C4: every remote request of a run is issued at a moment when the
cumulative fetched-record count is still below the configured target: once
the total reaches the target after some page, no further request is issued
in the rest of the run — the target check runs after every page and
short-circuits all remaining pages and shards. -/
theorem no_request_after_target (target : ℕ) (runDate : ℤ) (tabs : Tables)
    (W s e : ℕ) (script : List FetchOutcome) :
    reqAtOrAfter target 0 (runEvs (crawlRange target runDate tabs W s e script)) = 0 := by
  have h := crawlShards_invariant target runDate (shards W s e)
    { tabs := tabs, total := 0 } script
  simpa [crawlRange] using h

/-- C3 (amended): on a 200 response whose body carries application-level
GraphQL errors, the orchestrator abandons the current shard's remaining
pages and proceeds to the next shard with the run intact; but when the
query client raises — retry exhaustion or a non-transient HTTP error
status — crawl_range catches nothing: the exception terminates the whole
run and the remaining shards are never queried (early termination otherwise
happens only when the global record-count target is reached). -/
theorem abort_vs_continue_amended (target : ℕ) (runDate : ℤ) (sh : ℕ × ℕ)
    (rest : List (ℕ × ℕ)) (st : St) (cur : Option String) (t : ℤ)
    (script : List FetchOutcome) (hT : st.total < target) :
    crawlPages target runDate sh st true cur (FetchOutcome.raise :: script)
      = PagesRes.aborted st [Event.request sh cur] ∧
    crawlPages target runDate sh st true cur (FetchOutcome.ret GqlData.errs t :: script)
      = PagesRes.next st script [Event.request sh cur] ∧
    crawlShards target runDate st (sh :: rest) (FetchOutcome.ret GqlData.errs t :: script)
      = addRunEvs [Event.request sh none] (crawlShards target runDate st rest script) ∧
    crawlShards target runDate st (sh :: rest) (FetchOutcome.raise :: script)
      = RunRes.aborted st [Event.request sh none] := by
  have hgt : (true = true ∧ st.total < target) := ⟨rfl, hT⟩
  have h1 : ∀ c : Option String,
      crawlPages target runDate sh st true c (FetchOutcome.raise :: script)
        = PagesRes.aborted st [Event.request sh c] := by
    intro c
    rw [crawlPages.eq_def]
    dsimp only
    rw [if_pos hgt]
  have h2 : ∀ c : Option String,
      crawlPages target runDate sh st true c (FetchOutcome.ret GqlData.errs t :: script)
        = PagesRes.next st script [Event.request sh c] := by
    intro c
    rw [crawlPages.eq_def]
    dsimp only
    rw [if_pos hgt]
  refine ⟨h1 cur, h2 cur, ?_, ?_⟩
  · rw [crawlShards.eq_def]
    dsimp only
    rw [if_pos hT, h2 none]
  · rw [crawlShards.eq_def]
    dsimp only
    rw [if_pos hT, h1 none]

/-- C3 counterexample: the configured range day 0 .. day 10 with window 1
yields five shards, but when graphql_request raises on the very first page
the whole run terminates in the aborted state after that single request —
no later shard is ever visited, contradicting the claim that the
orchestrator proceeds to the next shard on an unrecoverable error. -/
theorem raise_terminates_run_counterexample :
    crawlRange 25000 0 tabsEx 1 0 10 [FetchOutcome.raise]
      = RunRes.aborted stEx [Event.request (0, 1) none] ∧
    (shards 1 0 10).length = 5 ∧
    (runEvs (crawlRange 25000 0 tabsEx 1 0 10 [FetchOutcome.raise])).length = 1 := by
  decide

/-- Witness for `abort_vs_continue_amended` at a concrete two-shard run. -/
theorem abort_vs_continue_amended_witness :
    stEx.total < 10 ∧
    (crawlPages 10 0 (0, 1) stEx true none [FetchOutcome.raise]
        = PagesRes.aborted stEx [Event.request (0, 1) none] ∧
     crawlPages 10 0 (0, 1) stEx true none [FetchOutcome.ret GqlData.errs 0]
        = PagesRes.next stEx [] [Event.request (0, 1) none] ∧
     crawlShards 10 0 stEx [(0, 1), (2, 3)] [FetchOutcome.ret GqlData.errs 0]
        = addRunEvs [Event.request (0, 1) none] (crawlShards 10 0 stEx [(2, 3)] []) ∧
     crawlShards 10 0 stEx [(0, 1), (2, 3)] [FetchOutcome.raise]
        = RunRes.aborted stEx [Event.request (0, 1) none]) :=
  ⟨by decide, abort_vs_continue_amended 10 0 (0, 1) [(2, 3)] stEx none 0 [] (by decide)⟩

/-- C6: the rate governor blocks exactly when the remaining quota reported
in the page just fetched is below the constant threshold 50; the sleep is
(reset time − now) plus the 5-second margin, clamped to a minimum of 1
second, and no block happens at or above the threshold; remaining 10 with
reset 30 seconds away gives exactly 35 seconds; inside the crawl loop the
sleep event immediately follows the request that fetched the page, before
any further request is issued. -/
theorem rate_governor_policy (rem resetAt now : ℤ) (target : ℕ) (runDate : ℤ)
    (sh : ℕ × ℕ) (st : St) (cur : Option String) (p : SearchPage) (obs : ℤ)
    (rest : List FetchOutcome) :
    (50 ≤ rem → rateSleepSec rem resetAt now = none) ∧
    (rem < 50 → rateSleepSec rem resetAt now = some (max 1 (resetAt - now + 5)) ∧
      (1 : ℤ) ≤ max 1 (resetAt - now + 5)) ∧
    rateSleepSec 10 (now + 30) now = some 35 ∧
    (st.total < target → p.rateLimit.remaining < 50 →
      (pagesEvs (crawlPages target runDate sh st true cur
          (FetchOutcome.ret (GqlData.page p) obs :: rest))).take 2
        = [Event.request sh cur, Event.sleepRate (max 1 (p.rateLimit.resetAt - obs + 5))]) := by
  refine ⟨?_, ?_, ?_, ?_⟩
  · intro h
    rw [rateSleepSec, if_neg (by omega)]
  · intro h
    rw [rateSleepSec, if_pos h]
    exact ⟨rfl, le_max_left 1 _⟩
  · rw [rateSleepSec, if_pos (by omega)]
    have he : now + 30 - now + 5 = (35 : ℤ) := by ring
    rw [he]
    rfl
  · intro hT hrem
    have hsleep : pageSleepEvs p obs
        = [Event.sleepRate (max 1 (p.rateLimit.resetAt - obs + 5))] := by
      unfold pageSleepEvs
      rw [rateSleepSec, if_pos hrem]
    rw [crawlPages.eq_def]
    dsimp only
    rw [if_pos ⟨rfl, hT⟩, pagesEvs_addPagesEvs, hsleep]
    rfl

/-- Witness for `rate_governor_policy` on a page reporting remaining 10 and
reset 35 seconds after the observation time. -/
theorem rate_governor_policy_witness :
    (stEx.total < 25000 ∧ pageEx.rateLimit.remaining < 50) ∧
    rateSleepSec 10 (10 + 30) 10 = some 35 ∧
    (pagesEvs (crawlPages 25000 0 (0, 7) stEx true none
        [FetchOutcome.ret (GqlData.page pageEx) 5])).take 2
      = [Event.request (0, 7) none,
         Event.sleepRate (max 1 (pageEx.rateLimit.resetAt - 5 + 5))] :=
  ⟨⟨by decide, by decide⟩,
   (rate_governor_policy 10 0 10 25000 0 (0, 7) stEx none pageEx 5 []).2.2.1,
   (rate_governor_policy 10 0 10 25000 0 (0, 7) stEx none pageEx 5 []).2.2.2
     (by decide) (by decide)⟩

/-- C10: a fetched page whose node list is empty performs no repository or
history upsert and leaves the stored tables and the cumulative count
untouched — the loop continues from the unchanged state — while pagination
still advances with that page's endCursor and hasNextPage flag; the page
contributes only its request, a possible governor sleep and the fixed
inter-page pause to the trace, and none of those events is an upsert or a
count. -/
theorem empty_page_frame (target : ℕ) (runDate : ℤ) (sh : ℕ × ℕ) (st : St)
    (cur : Option String) (p : SearchPage) (obs : ℤ) (rest : List FetchOutcome)
    (hT : st.total < target) (hN : p.nodes = []) :
    crawlPages target runDate sh st true cur (FetchOutcome.ret (GqlData.page p) obs :: rest)
      = addPagesEvs (Event.request sh cur :: (pageSleepEvs p obs ++ [Event.pause]))
          (crawlPages target runDate sh st p.pageInfo.hasNextPage p.pageInfo.endCursor rest) ∧
    (∀ n : ℕ,
      Event.upsertR n ∉ Event.request sh cur :: (pageSleepEvs p obs ++ [Event.pause]) ∧
      Event.upsertH n ∉ Event.request sh cur :: (pageSleepEvs p obs ++ [Event.pause]) ∧
      Event.counted n ∉ Event.request sh cur :: (pageSleepEvs p obs ++ [Event.pause])) := by
  have hemp : (pageMapped p).isEmpty = true := by
    rw [pageMapped, hN]
    rfl
  constructor
  · rw [crawlPages.eq_def]
    dsimp only
    rw [if_pos ⟨rfl, hT⟩]
    have e1 : pageTabs runDate st.tabs p obs = st.tabs := by rw [pageTabs, if_pos hemp]
    have e2 : pageUpEvs runDate p = [] := by rw [pageUpEvs, if_pos hemp]
    have e3 : pageTotal st.total p = st.total := by rw [pageTotal, if_pos hemp]
    rw [e1, e2, e3, List.append_nil]
  · intro n
    refine ⟨?_, ?_, ?_⟩ <;>
      cases hx : rateSleepSec p.rateLimit.remaining p.rateLimit.resetAt obs <;>
        simp [pageSleepEvs, hx]

/-- Witness for `empty_page_frame` on a concrete empty page. -/
theorem empty_page_frame_witness :
    (stEx.total < 25000 ∧ pageEx.nodes = []) ∧
    (crawlPages 25000 0 (0, 7) stEx true none [FetchOutcome.ret (GqlData.page pageEx) 5]
        = addPagesEvs (Event.request (0, 7) none :: (pageSleepEvs pageEx 5 ++ [Event.pause]))
            (crawlPages 25000 0 (0, 7) stEx pageEx.pageInfo.hasNextPage
              pageEx.pageInfo.endCursor []) ∧
     (∀ n : ℕ,
       Event.upsertR n ∉ Event.request (0, 7) none :: (pageSleepEvs pageEx 5 ++ [Event.pause]) ∧
       Event.upsertH n ∉ Event.request (0, 7) none :: (pageSleepEvs pageEx 5 ++ [Event.pause]) ∧
       Event.counted n ∉ Event.request (0, 7) none :: (pageSleepEvs pageEx 5 ++ [Event.pause]))) :=
  ⟨⟨by decide, by decide⟩,
   empty_page_frame 25000 0 (0, 7) stEx none pageEx 5 [] (by decide) (by decide)⟩

end Crawler
